import Mathlib

/-!
# Verification of the code-rag-review chunking and indexing core

This file gives a shallow embedding, in Lean 4, of the chunking, chunk-identity,
retrieval and index-assembly logic of the repository (src/chunker.ts,
src/indexer.ts, src/vector.ts, src/types.ts), and proves or refutes the
specification claims about it.

Modelling conventions:
* JavaScript strings are modelled as `List Char` (`Str`).  JS `length` is list
  length; the sources only compare lengths against configured budgets, so the
  code-unit/code-point distinction is irrelevant to the claims.
* JS numbers that the sources use as counts, line numbers and sizes are
  modelled as `Nat`; embedding-vector components are modelled as `ℚ` (exact
  semantics of the arithmetic the sources perform on them).
* The two `while` loops of `chunkTextByLines` are modelled with an explicit
  fuel argument so that every definition is executable by the kernel; the fuel
  chosen by the top-level entry point is proved sufficient
  (`chunkLoop_fuel_irrelevant`), which is exactly the termination argument of
  the source loop.
-/

set_option maxHeartbeats 1000000

/-- JavaScript strings, modelled as lists of characters. -/
abbrev Str := List Char

/-- `chunkingStrategy ∈ {"ast", "text"}` (src/chunker.ts, `ChunkPart`). -/
inductive Strategy where
  | ast
  | text
deriving DecidableEq

/-- The string the source writes for a strategy (`"ast"` / `"text"`). -/
def Strategy.str : Strategy → Str
  | .ast => 'a' :: 's' :: 't' :: []
  | .text => 't' :: 'e' :: 'x' :: 't' :: []

/-- `interface ChunkPart` (src/chunker.ts lines 4-11). -/
structure ChunkPart where
  startLine : Nat
  endLine : Nat
  content : Str
  nodeType : Option Str := none
  symbol : Option Str := none
  chunkingStrategy : Strategy
deriving DecidableEq

/-- `interface ChunkOptions` (src/chunker.ts lines 13-16). -/
structure ChunkOptions where
  chunkSize : Nat
  overlapLines : Nat
deriving DecidableEq

/-- `text.replace(/\r\n/g, "\n")` (src/chunker.ts line 19): left-to-right,
non-overlapping replacement of every CRLF pair by a single LF. -/
def normalizeEol : Str → Str
  | [] => []
  | '\r' :: '\n' :: rest => '\n' :: normalizeEol rest
  | c :: rest => c :: normalizeEol rest

/-- `normalized.split("\n")` (src/chunker.ts line 20): JS `String.split` on a
one-character separator.  `"".split("\n") = [""]`, so the result is never
empty. -/
def splitNl : Str → List Str
  | [] => [[]]
  | c :: rest =>
    if c = '\n' then [] :: splitNl rest
    else
      match splitNl rest with
      | [] => [[c]]
      | l :: ls => (c :: l) :: ls

/-- `lines.slice(start, end).join("\n")` uses JS `Array.join("\n")`. -/
def joinLines : List Str → Str
  | [] => []
  | [l] => l
  | l :: ls => l ++ '\n' :: joinLines ls

/-- The lines of an input text as the source computes them
(src/chunker.ts lines 19-20). -/
def linesOf (text : Str) : List Str :=
  splitNl (normalizeEol text)

/-- The inner `while` loop of `chunkTextByLines` (src/chunker.ts lines 29-43):
starting from index `e` with accumulated character count `curLen`, greedily
extend the current window.  The fuel argument only bounds the iteration count;
whenever `fuel ≥ lines.length - e` it never runs out before the loop condition
`e < lines.length` fails, and the fuel-exhausted result coincides with the
loop-exit result in that case. -/
def findEndAux (lines : List Str) (chunkSize start : Nat) : Nat → Nat → Nat → Nat
  | 0, e, _ => e
  | fuel + 1, e, curLen =>
    if h : e < lines.length then
      let line := lines.get ⟨e, h⟩
      let addLength := line.length + (if start < e then 1 else 0)
      if chunkSize < curLen + addLength ∧ start < e then e
      else
        let curLen' := curLen + addLength
        if chunkSize ≤ curLen' then e + 1
        else findEndAux lines chunkSize start fuel (e + 1) curLen'
    else e

/-- The end index of the window starting at `start`, including the
`if (end <= start) end = start + 1` adjustment (src/chunker.ts lines 29-47). -/
def computeEnd (lines : List Str) (chunkSize start : Nat) : Nat :=
  let e := findEndAux lines chunkSize start lines.length start 0
  if e ≤ start then start + 1 else e

/-- The chunk pushed for the window `[start, e)` (src/chunker.ts lines 49-54);
`start` and `e` are 0-based, the emitted lines are 1-based inclusive. -/
def mkTextChunk (lines : List Str) (start e : Nat) : ChunkPart :=
  { startLine := start + 1
    endLine := e
    content := joinLines ((lines.drop start).take (e - start))
    chunkingStrategy := .text }

/-- The outer `while` loop of `chunkTextByLines` (src/chunker.ts lines 28-63).
`chunkLineCount - 1` and `Math.max(0, chunkLineCount - 1)` coincide under
truncated `Nat` subtraction. -/
def chunkLoop (lines : List Str) (opts : ChunkOptions) : Nat → Nat → List ChunkPart
  | 0, _ => []
  | fuel + 1, start =>
    if start < lines.length then
      let e := computeEnd lines opts.chunkSize start
      let chunk := mkTextChunk lines start e
      if lines.length ≤ e then [chunk]
      else
        let chunkLineCount := e - start
        let effectiveOverlap := min opts.overlapLines (chunkLineCount - 1)
        chunk :: chunkLoop lines opts fuel (e - effectiveOverlap)
    else []

/-- `chunkTextByLines` (src/chunker.ts lines 18-66).  The dead
`lines.length === 0` early return of the source is kept; `splitNl` never
returns `[]` so it never fires.  The fuel `lines.length + 1` is sufficient
because the window start strictly increases on every iteration. -/
def chunkTextByLines (text : Str) (opts : ChunkOptions) : List ChunkPart :=
  let lines := linesOf text
  if lines.length = 0 then [] else chunkLoop lines opts (lines.length + 1) 0

theorem splitNl_ne_nil (s : Str) : splitNl s ≠ [] := by
  match s with
  | [] => simp [splitNl]
  | c :: rest =>
    rw [splitNl]
    split
    · simp
    · match h : splitNl rest with
      | [] => simp
      | l :: ls => simp

theorem linesOf_length_pos (text : Str) : 0 < (linesOf text).length :=
  List.length_pos.mpr (splitNl_ne_nil (normalizeEol text))

theorem findEndAux_le (lines : List Str) (cs start : Nat) :
    ∀ fuel e curLen, e ≤ lines.length →
      findEndAux lines cs start fuel e curLen ≤ lines.length := by
  intro fuel
  induction fuel with
  | zero => intro e curLen he; exact he
  | succ fuel ih =>
    intro e curLen he
    simp only [findEndAux]
    split
    · split_ifs <;> first | omega | exact ih (e + 1) _ (by omega)
    · exact he

theorem findEndAux_ge (lines : List Str) (cs start : Nat) :
    ∀ fuel e curLen, e ≤ findEndAux lines cs start fuel e curLen := by
  intro fuel
  induction fuel with
  | zero => intro e curLen; exact Nat.le_refl e
  | succ fuel ih =>
    intro e curLen
    simp only [findEndAux]
    split
    · split_ifs <;> first | omega | exact Nat.le_trans (by omega) (ih (e + 1) _)
    · exact Nat.le_refl e

theorem computeEnd_gt (lines : List Str) (cs start : Nat) :
    start < computeEnd lines cs start := by
  rw [computeEnd]
  split <;> omega

theorem computeEnd_le (lines : List Str) (cs start : Nat) (h : start < lines.length) :
    computeEnd lines cs start ≤ lines.length := by
  rw [computeEnd]
  have := findEndAux_le lines cs start lines.length start 0 (Nat.le_of_lt h)
  split <;> omega

/-- Every chunk emitted by the outer loop is the window chunk of some
`start < e = computeEnd lines chunkSize start` with `e ≤ lines.length`. -/
theorem chunkLoop_mem (lines : List Str) (opts : ChunkOptions) :
    ∀ fuel start p, p ∈ chunkLoop lines opts fuel start →
      ∃ s e, s < e ∧ s < lines.length ∧ e ≤ lines.length ∧
        e = computeEnd lines opts.chunkSize s ∧ p = mkTextChunk lines s e := by
  intro fuel
  induction fuel with
  | zero => intro start p hp; simp [chunkLoop] at hp
  | succ fuel ih =>
    intro start p hp
    simp only [chunkLoop] at hp
    split at hp
    · next hstart =>
      split at hp
      · next hend =>
        refine ⟨start, computeEnd lines opts.chunkSize start, computeEnd_gt _ _ _, hstart,
          computeEnd_le _ _ _ hstart, rfl, ?_⟩
        simpa using hp
      · rcases List.mem_cons.mp hp with h | h
        · exact ⟨start, computeEnd lines opts.chunkSize start, computeEnd_gt _ _ _, hstart,
            computeEnd_le _ _ _ hstart, rfl, h⟩
        · exact ih _ p h
    · simp at hp

/-- Termination of the outer loop: any fuel strictly greater than
`lines.length - start` produces the same result, because the window start
strictly increases on every iteration. -/
theorem chunkLoop_fuel_irrelevant (lines : List Str) (opts : ChunkOptions) :
    ∀ fuel₁ fuel₂ start, lines.length - start < fuel₁ → lines.length - start < fuel₂ →
      chunkLoop lines opts fuel₁ start = chunkLoop lines opts fuel₂ start := by
  intro fuel₁
  induction fuel₁ with
  | zero => intro fuel₂ start h1 h2; omega
  | succ fuel₁ ih =>
    intro fuel₂ start h1 h2
    match fuel₂ with
    | 0 => omega
    | fuel₂ + 1 =>
      simp only [chunkLoop]
      split
      · next hstart =>
        split
        · rfl
        · next hend =>
          have hgt := computeEnd_gt lines opts.chunkSize start
          have hle := computeEnd_le lines opts.chunkSize start hstart
          congr 1
          apply ih
          · omega
          · omega
      · rfl

/-- When the loop is entered (`start < lines.length`, fuel available), the
first emitted chunk is the window chunk at `start`. -/
theorem chunkLoop_head (lines : List Str) (opts : ChunkOptions) (fuel start : Nat)
    (h1 : start < lines.length) (h2 : 0 < fuel) :
    ∃ rest, chunkLoop lines opts fuel start =
      mkTextChunk lines start (computeEnd lines opts.chunkSize start) :: rest := by
  match fuel with
  | fuel + 1 =>
    simp only [chunkLoop]
    rw [if_pos h1]
    split
    · exact ⟨[], rfl⟩
    · exact ⟨_, rfl⟩

/-- Consecutive chunks: the next start line is exactly the previous end line
plus one minus the effective overlap, and strictly beyond the previous start. -/
theorem chunkLoop_chain (lines : List Str) (opts : ChunkOptions) :
    ∀ fuel start, lines.length - start < fuel →
      List.Chain' (fun a b => a.startLine < b.startLine ∧
          b.startLine + min opts.overlapLines (a.endLine - a.startLine) = a.endLine + 1)
        (chunkLoop lines opts fuel start) := by
  intro fuel
  induction fuel with
  | zero => intro start h; omega
  | succ fuel ih =>
    intro start h
    simp only [chunkLoop]
    split
    · next hstart =>
      split
      · simp
      · next hend =>
        have hgt := computeEnd_gt lines opts.chunkSize start
        have hle := computeEnd_le lines opts.chunkSize start hstart
        set e := computeEnd lines opts.chunkSize start with he
        rw [List.chain'_cons']
        have hlt : lines.length - (e - min opts.overlapLines (e - start - 1)) < fuel := by omega
        refine ⟨?_, ih _ hlt⟩
        intro b hb
        have hstart' : e - min opts.overlapLines (e - start - 1) < lines.length := by omega
        obtain ⟨rest, hrest⟩ := chunkLoop_head lines opts fuel
          (e - min opts.overlapLines (e - start - 1)) hstart' (by omega)
        rw [hrest] at hb
        simp only [List.head?_cons, Option.mem_def, Option.some.injEq] at hb
        subst hb
        constructor
        · show start + 1 < e - min opts.overlapLines (e - start - 1) + 1
          omega
        · show e - min opts.overlapLines (e - start - 1) + 1 +
              min opts.overlapLines (e - (start + 1)) = e + 1
          have : e - (start + 1) = e - start - 1 := by omega
          rw [this]
          omega
    · simp

/-- Every line from `start + 1` to `lines.length` is covered by some emitted
chunk. -/
theorem chunkLoop_covers (lines : List Str) (opts : ChunkOptions) :
    ∀ fuel start n, lines.length - start < fuel → start < n → n ≤ lines.length →
      ∃ p ∈ chunkLoop lines opts fuel start, p.startLine ≤ n ∧ n ≤ p.endLine := by
  intro fuel
  induction fuel with
  | zero => intro start n h1 h2 h3; omega
  | succ fuel ih =>
    intro start n h1 h2 h3
    have hstart : start < lines.length := by omega
    simp only [chunkLoop]
    rw [if_pos hstart]
    have hgt := computeEnd_gt lines opts.chunkSize start
    have hle := computeEnd_le lines opts.chunkSize start hstart
    set e := computeEnd lines opts.chunkSize start with he
    split
    · next hend =>
      exact ⟨mkTextChunk lines start e, List.mem_singleton.mpr rfl, by simp [mkTextChunk]; omega,
        by simp [mkTextChunk]; omega⟩
    · next hend =>
      by_cases hn : n ≤ e
      · exact ⟨mkTextChunk lines start e, List.mem_cons_self _ _,
          by simp [mkTextChunk]; omega, by simp [mkTextChunk]; exact hn⟩
      · have hstart' : e - min opts.overlapLines (e - start - 1) < n := by omega
        obtain ⟨p, hp, hcov⟩ := ih (e - min opts.overlapLines (e - start - 1)) n (by omega) hstart' h3
        exact ⟨p, List.mem_cons_of_mem _ hp, hcov⟩

/-- C2: for every input text (of `N ≥ 1` lines — every text has at least one
line under JS `split` semantics) and every `chunkSize`/`overlapLines`,
`chunkTextByLines` covers every line `1..N` with at least one chunk, and each
pair of consecutive chunks overlaps by at most
`min(overlapLines, L - 1)` lines, `L` being the earlier chunk's line count. -/
theorem chunkTextByLines_coverage_overlap (text : Str) (opts : ChunkOptions) :
    (∀ n, 1 ≤ n → n ≤ (linesOf text).length →
      ∃ p ∈ chunkTextByLines text opts, p.startLine ≤ n ∧ n ≤ p.endLine) ∧
    List.Chain' (fun a b => a.endLine + 1 - b.startLine ≤
        min opts.overlapLines (a.endLine + 1 - a.startLine - 1))
      (chunkTextByLines text opts) := by
  have hpos := linesOf_length_pos text
  have hne : ¬ (linesOf text).length = 0 := by omega
  constructor
  · intro n h1 h2
    simp only [chunkTextByLines, if_neg hne]
    exact chunkLoop_covers (linesOf text) opts _ 0 n (by omega) (by omega) h2
  · simp only [chunkTextByLines, if_neg hne]
    exact List.Chain'.imp (fun a b hab => by obtain ⟨hab1, hab2⟩ := hab; omega)
      (chunkLoop_chain (linesOf text) opts _ 0 (by omega))

theorem chunkTextByLines_coverage_overlap_witness :
    ∃ p ∈ chunkTextByLines ('a' :: '\n' :: 'b' :: []) ⟨1, 0⟩,
      p.startLine ≤ 2 ∧ 2 ≤ p.endLine :=
  (chunkTextByLines_coverage_overlap ('a' :: '\n' :: 'b' :: []) ⟨1, 0⟩).1 2
    (by decide) (by decide)

/-- C3: the chunking loop terminates on every input — formalised as fuel
irrelevance: any fuel beyond the number of lines yields the same (defined)
result, because after a non-final chunk the next window start equals the
previous chunk's end line plus one minus `min(overlapLines, chunkLineCount-1)`
and is strictly greater than the previous start (second conjunct, where
`a.endLine - a.startLine = chunkLineCount - 1`). -/
theorem chunkTextByLines_terminating_advance (text : Str) (opts : ChunkOptions) :
    (∀ fuel, (linesOf text).length < fuel →
      chunkLoop (linesOf text) opts fuel 0 = chunkTextByLines text opts) ∧
    List.Chain' (fun a b => a.startLine < b.startLine ∧
        b.startLine + min opts.overlapLines (a.endLine - a.startLine) = a.endLine + 1)
      (chunkTextByLines text opts) := by
  have hpos := linesOf_length_pos text
  have hne : ¬ (linesOf text).length = 0 := by omega
  constructor
  · intro fuel hf
    simp only [chunkTextByLines, if_neg hne]
    exact chunkLoop_fuel_irrelevant (linesOf text) opts fuel ((linesOf text).length + 1) 0
      (by omega) (by omega)
  · simp only [chunkTextByLines, if_neg hne]
    exact chunkLoop_chain (linesOf text) opts _ 0 (by omega)

theorem chunkTextByLines_terminating_advance_witness :
    chunkLoop (linesOf ('x' :: '\n' :: 'y' :: [])) ⟨1, 5⟩ 10 0 =
      chunkTextByLines ('x' :: '\n' :: 'y' :: []) ⟨1, 5⟩ :=
  (chunkTextByLines_terminating_advance ('x' :: '\n' :: 'y' :: []) ⟨1, 5⟩).1 10 (by decide)

/-- Every chunk of `chunkTextByLines` is the window chunk of some
`s < e ≤ lines.length`. -/
theorem chunkTextByLines_mem (text : Str) (opts : ChunkOptions) (p : ChunkPart)
    (hp : p ∈ chunkTextByLines text opts) :
    ∃ s e, s < e ∧ s < (linesOf text).length ∧ e ≤ (linesOf text).length ∧
      p = mkTextChunk (linesOf text) s e := by
  have hpos := linesOf_length_pos text
  have hne : ¬ (linesOf text).length = 0 := by omega
  simp only [chunkTextByLines, if_neg hne] at hp
  obtain ⟨s, e, h1, h2, h3, _, h5⟩ := chunkLoop_mem (linesOf text) opts _ 0 p hp
  exact ⟨s, e, h1, h2, h3, h5⟩

theorem joinLines_cons (l : Str) (ls : List Str) (h : ls ≠ []) :
    joinLines (l :: ls) = l ++ '\n' :: joinLines ls := by
  match ls with
  | x :: xs => rfl

/-- `lines.join("\n")` is a left inverse of `split("\n")`. -/
theorem joinLines_splitNl (s : Str) : joinLines (splitNl s) = s := by
  induction s with
  | nil => rfl
  | cons c rest ih =>
    rw [splitNl]
    split
    · next hc =>
      subst hc
      rw [joinLines_cons [] (splitNl rest) (splitNl_ne_nil rest), ih]
      rfl
    · next hc =>
      match h : splitNl rest with
      | [] => exact absurd h (splitNl_ne_nil rest)
      | [l] =>
        rw [h] at ih
        show c :: l = c :: rest
        rw [show joinLines [l] = l from rfl] at ih
        rw [ih]
      | l :: x :: xs =>
        rw [h] at ih
        rw [joinLines_cons (c :: l) (x :: xs) (by simp),
          show joinLines (l :: x :: xs) = l ++ '\n' :: joinLines (x :: xs) from rfl] at *
        simp only [List.cons_append]
        rw [← ih]

theorem joinLines_take_prefix : ∀ (k : Nat) (ls : List Str),
    joinLines (ls.take k) <+: joinLines ls := by
  intro k
  induction k with
  | zero => intro ls; exact ⟨joinLines ls, by simp [joinLines]⟩
  | succ k ih =>
    intro ls
    match ls with
    | [] => exact List.prefix_refl _
    | [l] =>
      rw [List.take_succ_cons, List.take_nil]
    | l :: x :: xs =>
      rw [List.take_succ_cons, joinLines_cons l (x :: xs) (by simp)]
      match htake : (x :: xs).take k with
      | [] => exact ⟨'\n' :: joinLines (x :: xs), rfl⟩
      | t :: ts =>
        have h := ih (x :: xs)
        rw [htake] at h
        obtain ⟨u, hu⟩ := h
        refine ⟨u, ?_⟩
        rw [joinLines_cons l (t :: ts) (by simp)]
        simp [List.append_assoc, hu]

theorem joinLines_drop_suffix : ∀ (k : Nat) (ls : List Str),
    joinLines (ls.drop k) <:+ joinLines ls := by
  intro k
  induction k with
  | zero => intro ls; exact List.suffix_refl _
  | succ k ih =>
    intro ls
    match ls with
    | [] => exact List.suffix_refl _
    | [l] =>
      rw [List.drop_succ_cons, List.drop_nil]
      exact ⟨l, by simp [joinLines]⟩
    | l :: x :: xs =>
      rw [List.drop_succ_cons]
      obtain ⟨u, hu⟩ := ih (x :: xs)
      exact ⟨l ++ '\n' :: u, by rw [joinLines_cons l (x :: xs) (by simp)]; simp [List.append_assoc, hu]⟩

theorem joinLines_slice_infix (ls : List Str) (s k : Nat) :
    joinLines ((ls.drop s).take k) <:+: joinLines ls := by
  obtain ⟨t, ht⟩ := joinLines_take_prefix k (ls.drop s)
  obtain ⟨u, hu⟩ := joinLines_drop_suffix s ls
  exact ⟨u, t, by rw [← hu, ← ht]; simp⟩

/-- Decimal rendering of a JS number holding a `Nat`, as performed by
`Array.prototype.join` on the numeric fields of `chunkKey`; modelled by core
`Nat.toDigits`, the definition underlying `Nat.repr`. -/
def natStr (n : Nat) : Str := Nat.toDigits 10 n

/-- `interface IndexedChunkInput` (src/types.ts). -/
structure IndexedChunkInput where
  path : Str
  language : Str
  startLine : Nat
  endLine : Nat
  content : Str
  nodeType : Option Str := none
  symbol : Option Str := none
  chunkingStrategy : Strategy
  contentHash : Str
  fileMtimeMs : Nat
  fileSize : Nat
deriving DecidableEq

/-- JS `Array.prototype.join(":")`. -/
def intercalateColon : List Str → Str
  | [] => []
  | [s] => s
  | s :: rest => s ++ ':' :: intercalateColon rest

/-- The seven strings joined by `chunkKey` (src/indexer.ts lines 33-41), in
order: path, start line, end line, content hash, node type (`""` if absent),
symbol (`""` if absent), chunking strategy. -/
def chunkKeyFields (input : IndexedChunkInput) : List Str :=
  [input.path, natStr input.startLine, natStr input.endLine, input.contentHash,
   input.nodeType.getD [], input.symbol.getD [], input.chunkingStrategy.str]

/-- `chunkKey` (src/indexer.ts lines 32-42). -/
def chunkKey (input : IndexedChunkInput) : Str :=
  intercalateColon (chunkKeyFields input)

/-- The seven-field tuple that the identity-key claim says the key determines:
file path, start line, end line, content hash, node type (empty string if
absent), symbol (empty string if absent), chunking strategy. -/
def keyTuple (i : IndexedChunkInput) : Str × Nat × Nat × Str × Str × Str × Strategy :=
  (i.path, i.startLine, i.endLine, i.contentHash, i.nodeType.getD [],
   i.symbol.getD [], i.chunkingStrategy)

/-- The inverse reading of a decimal digit character. -/
def digitVal (c : Char) : Nat :=
  if c = '0' then 0 else if c = '1' then 1 else if c = '2' then 2 else
  if c = '3' then 3 else if c = '4' then 4 else if c = '5' then 5 else
  if c = '6' then 6 else if c = '7' then 7 else if c = '8' then 8 else
  if c = '9' then 9 else 0

def digitsVal (s : Str) : Nat := s.foldl (fun acc c => 10 * acc + digitVal c) 0

theorem toDigitsCore_fuel : ∀ n fuel₁ fuel₂ ds, n < fuel₁ → n < fuel₂ →
    Nat.toDigitsCore 10 fuel₁ n ds = Nat.toDigitsCore 10 fuel₂ n ds := by
  intro n
  induction n using Nat.strong_induction_on with
  | _ n ih =>
    intro fuel₁ fuel₂ ds h1 h2
    match fuel₁, fuel₂ with
    | f₁ + 1, f₂ + 1 =>
      simp only [Nat.toDigitsCore]
      split
      · rfl
      · next hdiv =>
        have hdm := Nat.div_add_mod n 10
        have hmod := Nat.mod_lt n (show 0 < 10 by omega)
        exact ih (n / 10) (by omega) f₁ f₂ _ (by omega) (by omega)

theorem toDigitsCore_append : ∀ n ds, Nat.toDigitsCore 10 (n + 1) n ds =
    Nat.toDigitsCore 10 (n + 1) n [] ++ ds := by
  intro n
  induction n using Nat.strong_induction_on with
  | _ n ih =>
    intro ds
    simp only [Nat.toDigitsCore]
    split
    · rfl
    · next hdiv =>
      have hdm := Nat.div_add_mod n 10
      have hmod := Nat.mod_lt n (show 0 < 10 by omega)
      have hlt : n / 10 < n := by omega
      rw [toDigitsCore_fuel (n / 10) n (n / 10 + 1) _ (by omega) (by omega),
        toDigitsCore_fuel (n / 10) n (n / 10 + 1) _ (by omega) (by omega),
        ih (n / 10) hlt (Nat.digitChar (n % 10) :: ds),
        ih (n / 10) hlt (Nat.digitChar (n % 10) :: [])]
      simp

theorem digitsVal_append (s : Str) (c : Char) :
    digitsVal (s ++ [c]) = 10 * digitsVal s + digitVal c := by
  simp [digitsVal, List.foldl_append]

theorem digitVal_digitChar (n : Nat) (h : n < 10) : digitVal (Nat.digitChar n) = n := by
  interval_cases n <;> decide

theorem digitChar_ne_colon (n : Nat) (h : n < 10) : Nat.digitChar n ≠ ':' := by
  interval_cases n <;> decide

/-- The decimal rendering is left-invertible, hence injective. -/
theorem digitsVal_natStr (n : Nat) : digitsVal (natStr n) = n := by
  induction n using Nat.strong_induction_on with
  | _ n ih =>
    rw [natStr, Nat.toDigits]
    simp only [Nat.toDigitsCore]
    have hdm := Nat.div_add_mod n 10
    have hmod := Nat.mod_lt n (show 0 < 10 by omega)
    split
    · next hdiv =>
      have : digitsVal [Nat.digitChar (n % 10)] = digitVal (Nat.digitChar (n % 10)) := by
        simp [digitsVal]
      rw [this, digitVal_digitChar (n % 10) hmod]
      omega
    · next hdiv =>
      have hlt : n / 10 < n := by omega
      rw [toDigitsCore_fuel (n / 10) n (n / 10 + 1) _ (by omega) (by omega),
        toDigitsCore_append (n / 10) [Nat.digitChar (n % 10)]]
      rw [show Nat.toDigitsCore 10 (n / 10 + 1) (n / 10) [] = natStr (n / 10) from rfl]
      rw [digitsVal_append, ih (n / 10) hlt, digitVal_digitChar (n % 10) hmod]
      omega

theorem natStr_no_colon (n : Nat) : ∀ c ∈ natStr n, c ≠ ':' := by
  induction n using Nat.strong_induction_on with
  | _ n ih =>
    rw [natStr, Nat.toDigits]
    simp only [Nat.toDigitsCore]
    have hdm := Nat.div_add_mod n 10
    have hmod := Nat.mod_lt n (show 0 < 10 by omega)
    split
    · next hdiv =>
      intro c hc
      rw [List.mem_singleton] at hc
      subst hc
      exact digitChar_ne_colon _ hmod
    · next hdiv =>
      have hlt : n / 10 < n := by omega
      rw [toDigitsCore_fuel (n / 10) n (n / 10 + 1) _ (by omega) (by omega),
        toDigitsCore_append (n / 10) [Nat.digitChar (n % 10)]]
      intro c hc
      rcases List.mem_append.mp hc with h | h
      · exact ih (n / 10) hlt c h
      · rw [List.mem_singleton] at h
        subst h
        exact digitChar_ne_colon _ hmod

theorem strategyStr_no_colon (s : Strategy) : ∀ c ∈ s.str, c ≠ ':' := by
  cases s <;> decide

theorem strategyStr_inj (s₁ s₂ : Strategy) (h : s₁.str = s₂.str) : s₁ = s₂ := by
  cases s₁ <;> cases s₂ <;> first | rfl | simp [Strategy.str] at h

theorem append_colon_inj : ∀ xs ys as bs : Str, (∀ c ∈ xs, c ≠ ':') → (∀ c ∈ ys, c ≠ ':') →
    xs ++ ':' :: as = ys ++ ':' :: bs → xs = ys ∧ as = bs := by
  intro xs
  induction xs with
  | nil =>
    intro ys as bs hx hy h
    cases ys with
    | nil => simpa using h
    | cons y ys' =>
      exfalso
      simp only [List.nil_append, List.cons_append, List.cons.injEq] at h
      exact hy y (by simp) h.1.symm
  | cons x xs' ih =>
    intro ys as bs hx hy h
    cases ys with
    | nil =>
      exfalso
      simp only [List.nil_append, List.cons_append, List.cons.injEq] at h
      exact hx x (by simp) h.1
    | cons y ys' =>
      simp only [List.cons_append, List.cons.injEq] at h
      obtain ⟨hxy, hrest⟩ := h
      obtain ⟨h1, h2⟩ := ih ys' as bs (fun c hc => hx c (by simp [hc]))
        (fun c hc => hy c (by simp [hc])) hrest
      exact ⟨by rw [hxy, h1], h2⟩

theorem intercalateColon_inj : ∀ l₁ l₂ : List Str, l₁.length = l₂.length →
    (∀ s ∈ l₁, ∀ c ∈ s, c ≠ ':') → (∀ s ∈ l₂, ∀ c ∈ s, c ≠ ':') →
    intercalateColon l₁ = intercalateColon l₂ → l₁ = l₂ := by
  intro l₁
  induction l₁ with
  | nil =>
    intro l₂ hlen _ _ _
    cases l₂ with
    | nil => rfl
    | cons _ _ => simp at hlen
  | cons s₁ rest₁ ih =>
    intro l₂ hlen h₁ h₂ heq
    cases l₂ with
    | nil => simp at hlen
    | cons s₂ rest₂ =>
      match rest₁, rest₂ with
      | [], [] =>
        rw [show intercalateColon [s₁] = s₁ from rfl,
          show intercalateColon [s₂] = s₂ from rfl] at heq
        rw [heq]
      | [], _ :: _ => simp at hlen
      | _ :: _, [] => simp at hlen
      | t₁ :: u₁, t₂ :: u₂ =>
        rw [show intercalateColon (s₁ :: t₁ :: u₁) = s₁ ++ ':' :: intercalateColon (t₁ :: u₁) from rfl,
          show intercalateColon (s₂ :: t₂ :: u₂) = s₂ ++ ':' :: intercalateColon (t₂ :: u₂) from rfl] at heq
        obtain ⟨hhead, htail⟩ := append_colon_inj _ _ _ _ (h₁ s₁ (by simp)) (h₂ s₂ (by simp)) heq
        have hrest := ih (t₂ :: u₂) (by simpa using hlen)
          (fun s hs => h₁ s (List.mem_cons_of_mem _ hs))
          (fun s hs => h₂ s (List.mem_cons_of_mem _ hs)) htail
        rw [hhead, hrest]

/-- Key fields contain no separator when path, hash, node type and symbol do
not: the numeric fields and the strategy never contain `':'`. -/
def colonFreeInput (i : IndexedChunkInput) : Prop :=
  (∀ c ∈ i.path, c ≠ ':') ∧ (∀ c ∈ i.contentHash, c ≠ ':') ∧
  (∀ c ∈ i.nodeType.getD [], c ≠ ':') ∧ (∀ c ∈ i.symbol.getD [], c ≠ ':')

instance (i : IndexedChunkInput) : Decidable (colonFreeInput i) := by
  unfold colonFreeInput
  infer_instance

theorem chunkKeyFields_colonFree (i : IndexedChunkInput) (h : colonFreeInput i) :
    ∀ s ∈ chunkKeyFields i, ∀ c ∈ s, c ≠ ':' := by
  obtain ⟨h1, h2, h3, h4⟩ := h
  intro s hs
  simp only [chunkKeyFields, List.mem_cons, List.not_mem_nil, or_false] at hs
  rcases hs with rfl | rfl | rfl | rfl | rfl | rfl | rfl
  exacts [h1, natStr_no_colon _, natStr_no_colon _, h2, h3, h4, strategyStr_no_colon _]

/-- C1 counterexample: two chunk inputs that differ in node type and symbol
(`nodeType = "T", symbol = "y:z"` versus `nodeType = "T:y", symbol = "z"`)
produce the same `chunkKey`, because the fields are joined with `":"` and a
symbol may itself contain `":"` (e.g. a destructuring declaration
`const { a: b } = …` yields symbol `"{ a: b }"`). -/
theorem chunkKey_collision :
    chunkKey
        { path := "a.ts".data, language := "ts".data, startLine := 1, endLine := 2,
          content := "x".data, nodeType := some "T".data, symbol := some "y:z".data,
          chunkingStrategy := .ast, contentHash := "h".data, fileMtimeMs := 0, fileSize := 1 } =
      chunkKey
        { path := "a.ts".data, language := "ts".data, startLine := 1, endLine := 2,
          content := "x".data, nodeType := some "T:y".data, symbol := some "z".data,
          chunkingStrategy := .ast, contentHash := "h".data, fileMtimeMs := 0, fileSize := 1 } ∧
    (some "T".data : Option Str) ≠ some "T:y".data ∧
    (some "y:z".data : Option Str) ≠ some "z".data := by decide

/-- C1 (amended): `chunkKey` is a deterministic composite of the seven fields,
and equal field tuples always give equal keys; the converse — keys equal only
if all seven fields are equal — holds exactly when the string-valued fields
contain no `':'` separator (which `chunkKey_collision` shows is necessary). -/
theorem chunkKey_eq_iff (i₁ i₂ : IndexedChunkInput)
    (h₁ : colonFreeInput i₁) (h₂ : colonFreeInput i₂) :
    chunkKey i₁ = chunkKey i₂ ↔ keyTuple i₁ = keyTuple i₂ := by
  constructor
  · intro h
    have hfields : chunkKeyFields i₁ = chunkKeyFields i₂ :=
      intercalateColon_inj _ _ rfl (chunkKeyFields_colonFree i₁ h₁)
        (chunkKeyFields_colonFree i₂ h₂) h
    simp only [chunkKeyFields, List.cons.injEq, and_true] at hfields
    obtain ⟨hp, hs, he, hh, hn, hsym, hstrat⟩ := hfields
    have hs' : i₁.startLine = i₂.startLine := by
      rw [← digitsVal_natStr i₁.startLine, hs, digitsVal_natStr]
    have he' : i₁.endLine = i₂.endLine := by
      rw [← digitsVal_natStr i₁.endLine, he, digitsVal_natStr]
    simp [keyTuple, hp, hs', he', hh, hn, hsym, strategyStr_inj _ _ hstrat]
  · intro h
    simp only [keyTuple, Prod.mk.injEq] at h
    obtain ⟨hp, hs, he, hh, hn, hsym, hstrat⟩ := h
    rw [chunkKey, chunkKey]
    congr 1
    simp [chunkKeyFields, hp, hs, he, hh, hn, hsym, hstrat]

theorem chunkKey_eq_iff_witness :
    (chunkKey
        { path := "a.ts".data, language := "ts".data, startLine := 3, endLine := 4,
          content := "x".data, nodeType := none, symbol := none,
          chunkingStrategy := .text, contentHash := "h1".data, fileMtimeMs := 0, fileSize := 1 } =
      chunkKey
        { path := "a.ts".data, language := "ts".data, startLine := 5, endLine := 6,
          content := "x".data, nodeType := none, symbol := none,
          chunkingStrategy := .text, contentHash := "h1".data, fileMtimeMs := 0, fileSize := 1 } ↔
      keyTuple
        { path := "a.ts".data, language := "ts".data, startLine := 3, endLine := 4,
          content := "x".data, nodeType := none, symbol := none,
          chunkingStrategy := .text, contentHash := "h1".data, fileMtimeMs := 0, fileSize := 1 } =
      keyTuple
        { path := "a.ts".data, language := "ts".data, startLine := 5, endLine := 6,
          content := "x".data, nodeType := none, symbol := none,
          chunkingStrategy := .text, contentHash := "h1".data, fileMtimeMs := 0, fileSize := 1 }) :=
  chunkKey_eq_iff _ _ (by decide) (by decide)

/-- C9: the 6-line regression input (`["a","b","c","d","e","f"].join("\n")`,
`chunkSize = 3`, `overlapLines = 1`) yields exactly 5 chunks, chunk 1 spanning
lines 1-2 and chunk 2 spanning lines 2-3. -/
theorem chunkTextByLines_six_line_regression :
    (chunkTextByLines ('a' :: '\n' :: 'b' :: '\n' :: 'c' :: '\n' :: 'd' :: '\n' :: 'e' :: '\n' :: 'f' :: [])
        ⟨3, 1⟩).length = 5 ∧
    (chunkTextByLines ('a' :: '\n' :: 'b' :: '\n' :: 'c' :: '\n' :: 'd' :: '\n' :: 'e' :: '\n' :: 'f' :: [])
        ⟨3, 1⟩).map (fun p => (p.startLine, p.endLine)) =
      [(1, 2), (2, 3), (3, 4), (4, 5), (5, 6)] := by decide

example :
    chunkTextByLines ("single line".data) ⟨100, 10⟩ =
      [{ startLine := 1, endLine := 1, content := "single line".data, chunkingStrategy := .text }] := by
  decide

/-- JS `String.prototype.trim` (src/chunker.ts line 195), restricted to the
ASCII whitespace characters (space, tab, CR, LF) that `Char.isWhitespace`
recognises. -/
def trimStr (s : Str) : Str :=
  ((s.dropWhile Char.isWhitespace).reverse.dropWhile Char.isWhitespace).reverse

/-- `splitLargeChunk` (src/chunker.ts lines 163-179): windowed re-split of an
oversized structural chunk, translating relative line numbers back to absolute
ones and tagging the parts as structural. -/
def splitLargeChunk (content : Str) (startLine : Nat) (nodeType : Str)
    (symbol : Option Str) (options : ChunkOptions) : List ChunkPart :=
  (chunkTextByLines content options).map fun part =>
    { startLine := startLine + part.startLine - 1
      endLine := startLine + part.endLine - 1
      content := part.content
      nodeType := some nodeType
      symbol := symbol
      chunkingStrategy := .ast }

/-- `addAstChunk` (src/chunker.ts lines 192-218).  The parser-derived inputs —
the raw node text `text.slice(startPos, endPos)`, the node's 1-based start and
end lines, its syntax-kind name and declared symbol — are taken as arguments;
everything from `const content = ….trim()` on is modelled exactly.  The
oversize test `content.length > Math.max(chunkSize, 1) * 1.35` is modelled in
exact arithmetic as `27 * max(chunkSize, 1) < 20 * content.length`
(`1.35 = 27/20`; since `27·k/20` is never within one part in `10¹⁴` of a
non-integer integer boundary, binary-float rounding of `1.35` cannot change
the comparison for any realistic size). -/
def addAstChunk (rawContent : Str) (startLine endLine : Nat) (nodeType : Str)
    (symbol : Option Str) (options : ChunkOptions) : List ChunkPart :=
  let content := trimStr rawContent
  if content = [] then []
  else if 27 * max options.chunkSize 1 < 20 * content.length then
    splitLargeChunk content startLine nodeType symbol options
  else
    [{ startLine := startLine, endLine := endLine, content := content,
       nodeType := some nodeType, symbol := symbol, chunkingStrategy := .ast }]

/-- C7: when a structural chunk's trimmed content length exceeds
`chunkSize × 1.35`, `addAstChunk` re-splits that content with windowed
chunking (`chunkTextByLines`), translates each part's relative start/end line
back to absolute file lines by offsetting with the structural chunk's start
line, and tags every part with the structural strategy and the original
nodeType and symbol; chunks at or below the threshold are emitted whole. -/
theorem addAstChunk_threshold (raw : Str) (s e : Nat) (nodeType : Str)
    (symbol : Option Str) (opts : ChunkOptions) :
    (27 * max opts.chunkSize 1 < 20 * (trimStr raw).length →
      addAstChunk raw s e nodeType symbol opts =
        (chunkTextByLines (trimStr raw) opts).map (fun part =>
          { startLine := s + part.startLine - 1, endLine := s + part.endLine - 1,
            content := part.content, nodeType := some nodeType, symbol := symbol,
            chunkingStrategy := .ast }) ∧
      ∀ p ∈ addAstChunk raw s e nodeType symbol opts,
        p.chunkingStrategy = .ast ∧ p.nodeType = some nodeType ∧ p.symbol = symbol) ∧
    (trimStr raw ≠ [] → 20 * (trimStr raw).length ≤ 27 * max opts.chunkSize 1 →
      addAstChunk raw s e nodeType symbol opts =
        [{ startLine := s, endLine := e, content := trimStr raw,
           nodeType := some nodeType, symbol := symbol, chunkingStrategy := .ast }]) := by
  constructor
  · intro hbig
    have hne : trimStr raw ≠ [] := by
      intro hnil
      rw [hnil] at hbig
      simp at hbig
    have heq : addAstChunk raw s e nodeType symbol opts =
        splitLargeChunk (trimStr raw) s nodeType symbol opts := by
      simp only [addAstChunk, if_neg hne, if_pos hbig]
    refine ⟨heq, ?_⟩
    intro p hp
    rw [heq] at hp
    rw [splitLargeChunk] at hp
    obtain ⟨q, _, hq⟩ := List.mem_map.mp hp
    subst hq
    exact ⟨rfl, rfl, rfl⟩
  · intro hne hsmall
    have hnotbig : ¬ 27 * max opts.chunkSize 1 < 20 * (trimStr raw).length := by omega
    simp only [addAstChunk, if_neg hne, if_neg hnotbig]

theorem addAstChunk_threshold_witness :
    addAstChunk ("aa\nbb".data) 10 11 ("FunctionDeclaration".data) none ⟨1, 0⟩ =
      (chunkTextByLines (trimStr ("aa\nbb".data)) ⟨1, 0⟩).map (fun part =>
        { startLine := 10 + part.startLine - 1, endLine := 10 + part.endLine - 1,
          content := part.content, nodeType := some ("FunctionDeclaration".data),
          symbol := none, chunkingStrategy := .ast }) :=
  ((addAstChunk_threshold ("aa\nbb".data) 10 11 ("FunctionDeclaration".data) none
    ⟨1, 0⟩).1 (by decide)).1

/-- C8 counterexample: for the CRLF input `"a\r\nb"` the single produced chunk
spans lines 1-2 with content `"a\nb"`, which is not a substring of the input
text — the chunker rewrites CRLF to LF before splitting, so chunk contents are
substrings of the normalized text, not of the original. -/
theorem chunk_content_not_substring_crlf :
    chunkTextByLines ('a' :: '\r' :: '\n' :: 'b' :: []) ⟨100, 0⟩ =
      [{ startLine := 1, endLine := 2, content := 'a' :: '\n' :: 'b' :: [],
         chunkingStrategy := .text }] ∧
    ¬ ('a' :: '\n' :: 'b' :: []) <:+: ('a' :: '\r' :: '\n' :: 'b' :: []) := by
  decide

/-- C8 (amended): every windowed chunk has `startLine ≤ endLine` and its
content is exactly the join of the corresponding line range of the
CRLF-normalized input — hence an exact substring of the normalized (not the
raw) input; every structural chunk has `startLine ≤ endLine` (given the
parser's `startLine ≤ endLine` for the whole-emit case) and its content is the
trimmed node text (whole case) or an exact substring of the CRLF-normalized
trimmed node text (re-split case). -/
theorem chunk_content_exact (text : Str) (opts : ChunkOptions) :
    (∀ p ∈ chunkTextByLines text opts,
      p.startLine ≤ p.endLine ∧
      p.content =
        joinLines (((linesOf text).drop (p.startLine - 1)).take (p.endLine + 1 - p.startLine)) ∧
      p.content <:+: normalizeEol text) ∧
    (∀ raw s e nodeType symbol, s ≤ e →
      ∀ p ∈ addAstChunk raw s e nodeType symbol opts,
        p.startLine ≤ p.endLine ∧
        (p.content = trimStr raw ∨ p.content <:+: normalizeEol (trimStr raw))) := by
  have main : ∀ t : Str, ∀ p ∈ chunkTextByLines t opts,
      p.startLine ≤ p.endLine ∧
      p.content = joinLines (((linesOf t).drop (p.startLine - 1)).take (p.endLine + 1 - p.startLine)) ∧
      p.content <:+: normalizeEol t := by
    intro t p hp
    obtain ⟨a, b, hab, ha, hb, hpeq⟩ := chunkTextByLines_mem t opts p hp
    subst hpeq
    refine ⟨by simp [mkTextChunk]; omega, ?_, ?_⟩
    · show joinLines (((linesOf t).drop a).take (b - a)) =
        joinLines (((linesOf t).drop (a + 1 - 1)).take (b + 1 - (a + 1)))
      have h1 : a + 1 - 1 = a := by omega
      have h2 : b + 1 - (a + 1) = b - a := by omega
      rw [h1, h2]
    · show joinLines (((linesOf t).drop a).take (b - a)) <:+: normalizeEol t
      have := joinLines_slice_infix (linesOf t) a (b - a)
      rwa [show joinLines (linesOf t) = normalizeEol t from joinLines_splitNl _] at this
  refine ⟨main text, ?_⟩
  intro raw s e nodeType symbol hse p hp
  rw [addAstChunk] at hp
  split at hp
  · simp at hp
  · split at hp
    · rw [splitLargeChunk] at hp
      obtain ⟨q, hq, hqeq⟩ := List.mem_map.mp hp
      obtain ⟨a, b, hab, ha, hb, hqshape⟩ := chunkTextByLines_mem (trimStr raw) opts q hq
      have hcontent := (main (trimStr raw) q hq).2.2
      subst hqeq
      constructor
      · rw [hqshape]
        simp [mkTextChunk]
        omega
      · exact Or.inr hcontent
    · rw [List.mem_singleton] at hp
      subst hp
      exact ⟨hse, Or.inl rfl⟩

theorem chunk_content_exact_witness :
    (1 : Nat) ≤ 1 ∧
    ('a' :: []) =
      joinLines (((linesOf ('a' :: '\n' :: 'b' :: [])).drop (1 - 1)).take (1 + 1 - 1)) ∧
    ('a' :: []) <:+: normalizeEol ('a' :: '\n' :: 'b' :: []) :=
  (chunk_content_exact ('a' :: '\n' :: 'b' :: []) ⟨1, 0⟩).1
    { startLine := 1, endLine := 1, content := ['a'], chunkingStrategy := .text } (by decide)

/-- `interface Chunk` (src/types.ts): a persisted indexed chunk. -/
structure Chunk where
  id : Str
  path : Str
  language : Str
  startLine : Nat
  endLine : Nat
  content : Str
  nodeType : Option Str := none
  symbol : Option Str := none
  chunkingStrategy : Strategy
  contentHash : Str
  fileMtimeMs : Nat
  fileSize : Nat
  embedding : List ℚ
deriving DecidableEq

/-- The dot product accumulated by the loop of `cosineSimilarity`
(src/vector.ts lines 10-16); in the branch where it runs, `a` and `b` have
equal nonzero length, so `a[i] ?? 0` is always `a[i]`. -/
def dotFold (a b : List ℚ) : ℚ := (a.zip b).foldl (fun acc p => acc + p.1 * p.2) 0

/-- The squared norm accumulated by the same loop. -/
def normFold (a : List ℚ) : ℚ := a.foldl (fun acc x => acc + x * x) 0

/-- `cosineSimilarity` (src/vector.ts lines 3-24).  The source's float result
`dot / (Math.sqrt(normA) * Math.sqrt(normB))` is irrational in general, so the
model returns its exact representation: the pair `(dot, normA * normB)`
denoting the real number `dot / √(normA·normB) = dot / (√normA · √normB)`,
with `(0, 0)` (denoting `0`) for every `return 0` branch.  `scoreVal`
interprets the pair as the real number the source computes. -/
def cosineSimilarity (a b : List ℚ) : ℚ × ℚ :=
  if a.length ≠ b.length ∨ a.length = 0 then (0, 0)
  else
    let dot := dotFold a b
    let normA := normFold a
    let normB := normFold b
    if normA = 0 ∨ normB = 0 then (0, 0)
    else (dot, normA * normB)

/-- Effective numerator of a represented score: a pair with non-positive
second component represents the score `0`. -/
def scoreNum (s : ℚ × ℚ) : ℚ := if s.2 ≤ 0 then 0 else s.1

/-- Effective radicand of a represented score (`1` for the zero score, so the
denominator is never zero). -/
def scoreDen (s : ℚ × ℚ) : ℚ := if s.2 ≤ 0 then 1 else s.2

/-- The real number represented by a score pair. -/
noncomputable def scoreVal (s : ℚ × ℚ) : ℝ :=
  (scoreNum s : ℝ) / Real.sqrt (scoreDen s)

/-- The real number `cosineSimilarity` computes for two vectors. -/
noncomputable def cosineValue (a b : List ℚ) : ℝ := scoreVal (cosineSimilarity a b)

/-- Decides `scoreVal x ≤ scoreVal y` in exact rational arithmetic (the
comparison JS performs on the float scores in the sort comparator). -/
def scoreLe (x y : ℚ × ℚ) : Bool :=
  if 0 < scoreNum x then
    if 0 < scoreNum y then
      decide (scoreNum x ^ 2 * scoreDen y ≤ scoreNum y ^ 2 * scoreDen x)
    else false
  else if 0 ≤ scoreNum y then true
  else decide (scoreNum y ^ 2 * scoreDen x ≤ scoreNum x ^ 2 * scoreDen y)

theorem scoreDen_pos (s : ℚ × ℚ) : 0 < scoreDen s := by
  rw [scoreDen]
  split
  · norm_num
  · linarith [not_le.mp (by assumption : ¬ s.2 ≤ 0)]

theorem sqrt_mul_le_iff_sq {d₁ d₂ D₁ D₂ : ℚ} (hD₁ : 0 < D₁) (hD₂ : 0 < D₂)
    (h₁ : 0 < d₁) (h₂ : 0 ≤ d₂) :
    ((d₁ : ℝ) * Real.sqrt (D₂ : ℚ) ≤ (d₂ : ℝ) * Real.sqrt (D₁ : ℚ)) ↔
      d₁ ^ 2 * D₂ ≤ d₂ ^ 2 * D₁ := by
  have hs₁ : (0 : ℝ) < Real.sqrt (D₁ : ℚ) := Real.sqrt_pos.mpr (by exact_mod_cast hD₁)
  have hs₂ : (0 : ℝ) < Real.sqrt (D₂ : ℚ) := Real.sqrt_pos.mpr (by exact_mod_cast hD₂)
  have hq₁ : Real.sqrt ((D₁ : ℚ) : ℝ) ^ 2 = ((D₁ : ℚ) : ℝ) :=
    Real.sq_sqrt (by exact_mod_cast hD₁.le)
  have hq₂ : Real.sqrt ((D₂ : ℚ) : ℝ) ^ 2 = ((D₂ : ℚ) : ℝ) :=
    Real.sq_sqrt (by exact_mod_cast hD₂.le)
  constructor
  · intro h
    have h2 : ((d₁ : ℝ) * Real.sqrt (D₂ : ℚ)) ^ 2 ≤ ((d₂ : ℝ) * Real.sqrt (D₁ : ℚ)) ^ 2 := by
      apply pow_le_pow_left₀ (by positivity) h
    rw [mul_pow, mul_pow, hq₁, hq₂] at h2
    exact_mod_cast h2
  · intro h
    by_contra hcon
    push_neg at hcon
    have hd₂s : (0 : ℝ) ≤ (d₂ : ℝ) * Real.sqrt (D₁ : ℚ) := by positivity
    have h2 : ((d₂ : ℝ) * Real.sqrt (D₁ : ℚ)) ^ 2 < ((d₁ : ℝ) * Real.sqrt (D₂ : ℚ)) ^ 2 := by
      apply pow_lt_pow_left₀ hcon hd₂s
      norm_num
    rw [mul_pow, mul_pow, hq₁, hq₂] at h2
    have h' : ((d₁ : ℝ)) ^ 2 * ((D₂ : ℚ) : ℝ) ≤ ((d₂ : ℝ)) ^ 2 * ((D₁ : ℚ) : ℝ) := by
      exact_mod_cast h
    linarith

/-- The rational comparator agrees with the real ordering of scores. -/
theorem scoreLe_iff (x y : ℚ × ℚ) : scoreLe x y = true ↔ scoreVal x ≤ scoreVal y := by
  have hDx := scoreDen_pos x
  have hDy := scoreDen_pos y
  have hsx : (0 : ℝ) < Real.sqrt (scoreDen x : ℚ) := Real.sqrt_pos.mpr (by exact_mod_cast hDx)
  have hsy : (0 : ℝ) < Real.sqrt (scoreDen y : ℚ) := Real.sqrt_pos.mpr (by exact_mod_cast hDy)
  have hval : (scoreVal x ≤ scoreVal y) ↔
      (scoreNum x : ℝ) * Real.sqrt (scoreDen y : ℚ) ≤
        (scoreNum y : ℝ) * Real.sqrt (scoreDen x : ℚ) := by
    rw [scoreVal, scoreVal, div_le_div_iff₀ hsx hsy]
  rw [hval, scoreLe]
  by_cases h1 : 0 < scoreNum x
  · rw [if_pos h1]
    by_cases h2 : 0 < scoreNum y
    · rw [if_pos h2, decide_eq_true_eq]
      exact (sqrt_mul_le_iff_sq hDx hDy h1 h2.le).symm
    · rw [if_neg h2]
      push_neg at h2
      constructor
      · intro h; exact absurd h (by simp)
      · intro h
        exfalso
        have hx : (0 : ℝ) < (scoreNum x : ℝ) * Real.sqrt (scoreDen y : ℚ) := by
          have : (0 : ℝ) < (scoreNum x : ℝ) := by exact_mod_cast h1
          positivity
        have hy : (scoreNum y : ℝ) * Real.sqrt (scoreDen x : ℚ) ≤ 0 := by
          apply mul_nonpos_of_nonpos_of_nonneg
          · exact_mod_cast h2
          · exact hsx.le
        linarith
  · rw [if_neg h1]
    push_neg at h1
    by_cases h2 : 0 ≤ scoreNum y
    · rw [if_pos h2]
      simp only [true_iff]
      have hx : (scoreNum x : ℝ) * Real.sqrt (scoreDen y : ℚ) ≤ 0 := by
        apply mul_nonpos_of_nonpos_of_nonneg
        · exact_mod_cast h1
        · exact hsy.le
      have hy : (0 : ℝ) ≤ (scoreNum y : ℝ) * Real.sqrt (scoreDen x : ℚ) := by
        have : (0 : ℝ) ≤ (scoreNum y : ℝ) := by exact_mod_cast h2
        positivity
      linarith
    · rw [if_neg h2, decide_eq_true_eq]
      push_neg at h2
      have key := @sqrt_mul_le_iff_sq (-scoreNum y) (-scoreNum x) (scoreDen y) (scoreDen x)
        hDy hDx (by linarith) (by linarith)
      constructor
      · intro h
        have := key.mpr (by nlinarith)
        push_cast at this ⊢
        linarith
      · intro h
        have h' : ((-scoreNum y : ℚ) : ℝ) * Real.sqrt (scoreDen x : ℚ) ≤
            ((-scoreNum x : ℚ) : ℝ) * Real.sqrt (scoreDen y : ℚ) := by
          push_cast
          linarith
        have := key.mp h'
        nlinarith

theorem scoreLe_trans_bool (a b c : ℚ × ℚ) (h1 : scoreLe a b) (h2 : scoreLe b c) :
    scoreLe a c :=
  (scoreLe_iff a c).mpr (le_trans ((scoreLe_iff a b).mp h1) ((scoreLe_iff b c).mp h2))

theorem scoreLe_total_bool (a b : ℚ × ℚ) : scoreLe a b || scoreLe b a := by
  rcases le_total (scoreVal a) (scoreVal b) with h | h
  · simp [(scoreLe_iff a b).mpr h]
  · simp [(scoreLe_iff b a).mpr h]

/-- The scored result list built by `retrieveTopK` before sorting
(src/vector.ts lines 27-30): each chunk paired with the (represented) cosine
similarity of the query embedding and the chunk embedding. -/
def scoredResults (chunks : List Chunk) (queryEmbedding : List ℚ) :
    List (Chunk × (ℚ × ℚ)) :=
  chunks.map fun chunk => (chunk, cosineSimilarity queryEmbedding chunk.embedding)

/-- `results.sort((a, b) => b.score - a.score)` (src/vector.ts line 32):
a stable sort, descending by score; `List.mergeSort` is stable and keeps `x`
before `y` when `le x y`, which for the JS comparator means
`score y ≤ score x`. -/
def sortedResults (chunks : List Chunk) (queryEmbedding : List ℚ) :
    List (Chunk × (ℚ × ℚ)) :=
  (scoredResults chunks queryEmbedding).mergeSort fun x y => scoreLe y.2 x.2

/-- `retrieveTopK` (src/vector.ts lines 27-34): `results.slice(0, topK)`. -/
def retrieveTopK (chunks : List Chunk) (queryEmbedding : List ℚ) (topK : Nat) :
    List (Chunk × (ℚ × ℚ)) :=
  (sortedResults chunks queryEmbedding).take topK

/-- C6: `retrieveTopK` returns at most `topK` results, returns `[]` on an
empty chunk list, orders results by cosine-similarity score descending, keeps
the chunks' original order on score ties (any pair in non-increasing score
order — in particular any tied pair — keeps its relative input order in the
sorted list), and assigns score `0` whenever the query or the chunk embedding
has zero norm. -/
theorem retrieveTopK_spec (chunks : List Chunk) (q : List ℚ) (topK : Nat) :
    (retrieveTopK chunks q topK).length ≤ topK ∧
    (chunks = [] → retrieveTopK chunks q topK = []) ∧
    (retrieveTopK chunks q topK).Pairwise (fun x y => scoreVal y.2 ≤ scoreVal x.2) ∧
    (∀ x y, List.Sublist [x, y] (scoredResults chunks q) → scoreVal y.2 ≤ scoreVal x.2 →
      List.Sublist [x, y] (sortedResults chunks q)) ∧
    (∀ c ∈ chunks, (normFold q = 0 ∨ normFold c.embedding = 0) →
      cosineValue q c.embedding = 0) := by
  have htrans : ∀ a b c : Chunk × (ℚ × ℚ),
      (fun x y => scoreLe y.2 x.2) a b → (fun x y => scoreLe y.2 x.2) b c →
      (fun x y => scoreLe y.2 x.2) a c := fun a b c h1 h2 =>
    scoreLe_trans_bool c.2 b.2 a.2 h2 h1
  have htotal : ∀ a b : Chunk × (ℚ × ℚ),
      (fun (x y : Chunk × (ℚ × ℚ)) => scoreLe y.2 x.2) a b ||
        (fun (x y : Chunk × (ℚ × ℚ)) => scoreLe y.2 x.2) b a :=
    fun a b => scoreLe_total_bool b.2 a.2
  refine ⟨?_, ?_, ?_, ?_, ?_⟩
  · rw [retrieveTopK]
    simp only [List.length_take]
    exact Nat.min_le_left _ _
  · intro h
    subst h
    simp [retrieveTopK, sortedResults, scoredResults, List.mergeSort]
  · have hsorted := List.sorted_mergeSort htrans htotal (scoredResults chunks q)
    have hpw : (sortedResults chunks q).Pairwise (fun x y => scoreVal y.2 ≤ scoreVal x.2) := by
      apply List.Pairwise.imp _ hsorted
      intro a b hab
      exact (scoreLe_iff b.2 a.2).mp hab
    exact hpw.sublist (List.take_sublist _ _)
  · intro x y hsub hle
    exact List.pair_sublist_mergeSort htrans htotal ((scoreLe_iff y.2 x.2).mpr hle) hsub
  · intro c _ hzero
    rw [cosineValue, cosineSimilarity]
    split
    · simp [scoreVal, scoreNum, scoreDen]
    · next hlen =>
      push_neg at hlen
      have : normFold q = 0 ∨ normFold c.embedding = 0 := hzero
      rw [if_pos this]
      simp [scoreVal, scoreNum, scoreDen]

/-- C10: `cosineSimilarity` never throws — it is a total function that returns
`0` whenever the two vectors' lengths differ or are zero; consequently every
retrieval result whose chunk embedding dimension differs from the query
dimension is silently scored `0`. -/
theorem cosineSimilarity_mismatch_zero (a b : List ℚ) :
    ((a.length ≠ b.length ∨ a.length = 0) → cosineValue a b = 0) ∧
    (∀ chunks : List Chunk, ∀ r ∈ sortedResults chunks a,
      r.1.embedding.length ≠ a.length → scoreVal r.2 = 0) := by
  constructor
  · intro h
    rw [cosineValue, cosineSimilarity, if_pos h]
    simp [scoreVal, scoreNum, scoreDen]
  · intro chunks r hr hlen
    rw [sortedResults, List.mem_mergeSort] at hr
    obtain ⟨c, _, hceq⟩ := List.mem_map.mp hr
    have h2 : r.2 = cosineSimilarity a c.embedding := by rw [← hceq]
    have h1 : r.1 = c := by rw [← hceq]
    rw [h2, cosineSimilarity, if_pos (Or.inl (by rw [h1] at hlen; omega))]
    simp [scoreVal, scoreNum, scoreDen]

/-- A concrete chunk with a zero-norm embedding, for the retrieval witness. -/
def sampleChunk : Chunk :=
  { id := [], path := [], language := [], startLine := 1, endLine := 1, content := [],
    chunkingStrategy := .text, contentHash := [], fileMtimeMs := 0, fileSize := 0,
    embedding := [0] }

theorem retrieveTopK_spec_witness : cosineValue [(1 : ℚ)] sampleChunk.embedding = 0 :=
  (retrieveTopK_spec [sampleChunk] [(1 : ℚ)] 5).2.2.2.2 sampleChunk
    (List.mem_singleton.mpr rfl) (Or.inr (by norm_num [sampleChunk, normFold]))

theorem cosineSimilarity_mismatch_zero_witness :
    cosineValue [(1 : ℚ), 2] [(1 : ℚ)] = 0 :=
  (cosineSimilarity_mismatch_zero [(1 : ℚ), 2] [(1 : ℚ)]).1 (Or.inl (by decide))

/-- `interface IndexManifest` (src/types.ts). -/
structure IndexManifest where
  version : Nat
  generatedAt : Str
  repoRoot : Str
  embeddingModel : Str
  chunkingMode : Strategy
  chunkSize : Nat
  overlapLines : Nat
  excludedDirs : List Str
  maxFileSizeBytes : Nat
  filesIndexed : Nat
  chunksIndexed : Nat
deriving DecidableEq

/-- `IndexOptions` (src/indexer.ts lines 10-21); the filesystem-only fields
(`indexDir`, `ollamaUrl`, `batchSize`) configure I/O outside the modelled
logic and are omitted — `batchSize` only shapes the internal batching of
`embedMany`, which is abstracted as the `embed` function. -/
structure IndexOptionsM where
  repoRoot : Str
  embeddingModel : Str
  chunkingMode : Strategy
  chunkSize : Nat
  overlapLines : Nat
  maxFileSizeBytes : Nat
  excludedDirs : List Str
deriving DecidableEq

/-- A source file as produced by the scanner, paired with its successfully
read content (src/indexer.ts lines 98-104: a file whose read fails is skipped
and never reaches the chunking loop, so the model's `files` are the readable
ones). -/
structure FileMeta where
  relPath : Str
  content : Str
  mtimeMs : Nat
  size : Nat
deriving DecidableEq

/-- The functions the indexer calls whose internals lie outside the modelled
core: the SHA-256 hex digest (src/hash.ts, a Node crypto wrapper), language
detection from the file extension (src/scanner.ts `detectLanguage`), the
TypeScript-AST applicability test and chunking path (src/chunker.ts
`supportsTypeScriptAst` / `chunkTypeScriptAst`, which call the TypeScript
compiler), and the `new Date().toISOString()` manifest timestamp.  Each is an
arbitrary fixed function, which is all the cache-reuse claims require:
determinism. -/
structure IndexEnv where
  hash : Str → Str
  detectLanguage : Str → Str
  astSupported : Str → Str → Bool
  astChunker : Str → Str → List ChunkPart
  now : Str

/-- `chunkSourceCode` (src/chunker.ts lines 245-250), with the TS-AST branch
delegated to the environment. -/
def chunkSourceCodeM (env : IndexEnv) (text : Str) (filePath language : Str)
    (mode : Strategy) (opts : ChunkOptions) : List ChunkPart :=
  if mode = .ast ∧ env.astSupported language filePath then env.astChunker filePath text
  else chunkTextByLines text opts

/-- The `IndexedChunkInput` record built for one `ChunkPart` of one file
(src/indexer.ts lines 115-128). -/
def toChunkInput (env : IndexEnv) (f : FileMeta) (language : Str)
    (part : ChunkPart) : IndexedChunkInput :=
  { path := f.relPath, language := language, startLine := part.startLine,
    endLine := part.endLine, content := part.content, nodeType := part.nodeType,
    symbol := part.symbol, chunkingStrategy := part.chunkingStrategy,
    contentHash := env.hash part.content, fileMtimeMs := f.mtimeMs,
    fileSize := f.size }

/-- The chunk inputs of one file (src/indexer.ts lines 106-128). -/
def inputsOfFile (env : IndexEnv) (opts : IndexOptionsM) (f : FileMeta) :
    List IndexedChunkInput :=
  (chunkSourceCodeM env f.content f.relPath (env.detectLanguage f.relPath)
      opts.chunkingMode ⟨opts.chunkSize, opts.overlapLines⟩).map
    (toChunkInput env f (env.detectLanguage f.relPath))

/-- All chunk inputs of the run, in file order (src/indexer.ts lines 98-139). -/
def runInputs (env : IndexEnv) (opts : IndexOptionsM) (files : List FileMeta) :
    List IndexedChunkInput :=
  files.flatMap (inputsOfFile env opts)

/-- The cache key recomputed from a persisted chunk's own fields
(src/indexer.ts lines 71-85). -/
def chunkToInput (c : Chunk) : IndexedChunkInput :=
  { path := c.path, language := c.language, startLine := c.startLine,
    endLine := c.endLine, content := c.content, nodeType := c.nodeType,
    symbol := c.symbol, chunkingStrategy := c.chunkingStrategy,
    contentHash := c.contentHash, fileMtimeMs := c.fileMtimeMs,
    fileSize := c.fileSize }

def keyOfChunk (c : Chunk) : Str := chunkKey (chunkToInput c)

/-- The reuse cache (src/indexer.ts lines 60-88): populated from the previous
chunk collection only when the previous manifest exists and records the same
embedding model, chunking mode, chunk size and overlap; otherwise left empty
(`loadAllChunks` is then never called). -/
def cacheOf (opts : IndexOptionsM) (pm : Option IndexManifest) (pc : List Chunk) :
    List (Str × Chunk) :=
  match pm with
  | none => []
  | some m =>
    if m.embeddingModel = opts.embeddingModel ∧ m.chunkingMode = opts.chunkingMode ∧
        m.chunkSize = opts.chunkSize ∧ m.overlapLines = opts.overlapLines then
      pc.map fun c => (keyOfChunk c, c)
    else []

/-- JS `Map.get` after the `Map.set` population loop: the last `set` of a key
wins, hence the lookup in the reversed entry list. -/
def cacheGet (cache : List (Str × Chunk)) (k : Str) : Option Chunk :=
  (cache.reverse.find? (fun e => e.1 == k)).map (fun e => e.2)

/-- One step of the cache-resolution loop (src/indexer.ts lines 130-138):
a hit appends the cached chunk to `chunks`, a miss appends the input to
`pending`. -/
def collectStep (cache : List (Str × Chunk)) (acc : List Chunk × List IndexedChunkInput)
    (input : IndexedChunkInput) : List Chunk × List IndexedChunkInput :=
  match cacheGet cache (chunkKey input) with
  | some c => (acc.1 ++ [c], acc.2)
  | none => (acc.1, acc.2 ++ [input])

def collect (cache : List (Str × Chunk)) (inputs : List IndexedChunkInput) :
    List Chunk × List IndexedChunkInput :=
  inputs.foldl (collectStep cache) ([], [])

/-- The chunks reused from the cache by a run. -/
def runReused (env : IndexEnv) (opts : IndexOptionsM) (pm : Option IndexManifest)
    (pc : List Chunk) (files : List FileMeta) : List Chunk :=
  (collect (cacheOf opts pm pc) (runInputs env opts files)).1

/-- The cache-miss inputs a run sends to the embedding service. -/
def runPending (env : IndexEnv) (opts : IndexOptionsM) (pm : Option IndexManifest)
    (pc : List Chunk) (files : List FileMeta) : List IndexedChunkInput :=
  (collect (cacheOf opts pm pc) (runInputs env opts files)).2

/-- `createChunkId` (src/indexer.ts lines 44-46). -/
def createChunkId (env : IndexEnv) (input : IndexedChunkInput) : Str :=
  (env.hash (chunkKey input)).take 20

/-- The chunk assembled from a pending input and its embedding
(src/indexer.ts lines 154-165).  The `!item || !embedding` guard is
unreachable once the count check passed (indices stay in range and a JS array
— even an empty one — is truthy), so the zip covers exactly the pending
inputs. -/
def mkNewChunk (env : IndexEnv) (p : IndexedChunkInput × List ℚ) : Chunk :=
  { id := createChunkId env p.1, path := p.1.path, language := p.1.language,
    startLine := p.1.startLine, endLine := p.1.endLine, content := p.1.content,
    nodeType := p.1.nodeType, symbol := p.1.symbol,
    chunkingStrategy := p.1.chunkingStrategy, contentHash := p.1.contentHash,
    fileMtimeMs := p.1.fileMtimeMs, fileSize := p.1.fileSize, embedding := p.2 }

/-- Lexicographic character order standing in for `localeCompare`
(src/indexer.ts line 171); the claims depend on the final sort only through
its permutation property, which holds for any comparator. -/
def lexLe : Str → Str → Bool
  | [], _ => true
  | _ :: _, [] => false
  | a :: as, b :: bs => if a = b then lexLe as bs else decide (a < b)

/-- The comparator of the final chunk sort (src/indexer.ts lines 167-172). -/
def chunkOrder (a b : Chunk) : Bool :=
  if a.path = b.path then decide (a.startLine ≤ b.startLine) else lexLe a.path b.path

inductive StoreOp where
  | replaceChunks (chunks : List Chunk)
  | saveManifest (m : IndexManifest)
deriving DecidableEq

/-- `IndexStats` (src/indexer.ts lines 23-30) without the filesystem path. -/
structure IndexStats where
  filesScanned : Nat
  filesIndexed : Nat
  chunksTotal : Nat
  chunksEmbedded : Nat
  chunksReused : Nat
deriving DecidableEq

structure BuildSuccess where
  chunks : List Chunk
  manifest : IndexManifest
  stats : IndexStats
deriving DecidableEq

/-- The manifest written by a build (src/indexer.ts lines 174-186). -/
def mkManifest (env : IndexEnv) (opts : IndexOptionsM)
    (filesIndexed chunksIndexed : Nat) : IndexManifest :=
  { version := 1, generatedAt := env.now, repoRoot := opts.repoRoot,
    embeddingModel := opts.embeddingModel, chunkingMode := opts.chunkingMode,
    chunkSize := opts.chunkSize, overlapLines := opts.overlapLines,
    excludedDirs := opts.excludedDirs, maxFileSizeBytes := opts.maxFileSizeBytes,
    filesIndexed := filesIndexed, chunksIndexed := chunksIndexed }

/-- The message of the count-mismatch error (src/indexer.ts lines 148-152). -/
def mismatchMessage (expected received : Nat) : Str :=
  ("Embedding count mismatch: expected ").data ++ natStr expected ++
    (" embeddings, received ").data ++ natStr received

/-- `buildIndex` (src/indexer.ts lines 52-199), modelled from the manifest
load to the persistence calls.  The directory walk and path arithmetic are
outside the model (the scanner's readable output is the `files` argument), the
embedding service is the `embed` argument, and the two store writes
(`replaceChunks`, `saveManifest`, lines 188-189) are returned as an ordered
trace of `StoreOp`s — empty when the build throws at the count check, which
happens before either write. -/
def buildIndexM (env : IndexEnv) (embed : List Str → List (List ℚ))
    (opts : IndexOptionsM) (pm : Option IndexManifest) (pc : List Chunk)
    (files : List FileMeta) : Except Str BuildSuccess × List StoreOp :=
  let reused := (collect (cacheOf opts pm pc) (runInputs env opts files)).1
  let pending := (collect (cacheOf opts pm pc) (runInputs env opts files)).2
  let embeddings := embed (pending.map (fun c => c.content))
  if embeddings.length ≠ pending.length then
    (.error (mismatchMessage pending.length embeddings.length), [])
  else
    let chunks := (reused ++ (pending.zip embeddings).map (mkNewChunk env)).mergeSort chunkOrder
    let manifest := mkManifest env opts files.length chunks.length
    (.ok { chunks := chunks, manifest := manifest,
           stats := { filesScanned := files.length, filesIndexed := files.length,
                      chunksTotal := chunks.length, chunksEmbedded := pending.length,
                      chunksReused := chunks.length - pending.length } },
     [.replaceChunks chunks, .saveManifest manifest])

/-- The persisted state a store holds for one index location. -/
structure Store where
  chunks : List Chunk
  manifest : Option IndexManifest
deriving DecidableEq

def applyOp (s : Store) : StoreOp → Store
  | .replaceChunks cs => { s with chunks := cs }
  | .saveManifest m => { s with manifest := some m }

def applyOps (s : Store) (ops : List StoreOp) : Store := ops.foldl applyOp s

/-- The cache-resolution loop is a `filterMap`/`filter` pair: reused chunks
are the cache hits in input order, pending inputs are the misses in input
order. -/
theorem collect_spec (cache : List (Str × Chunk)) (inputs : List IndexedChunkInput) :
    collect cache inputs =
      (inputs.filterMap (fun i => cacheGet cache (chunkKey i)),
       inputs.filter (fun i => (cacheGet cache (chunkKey i)).isNone)) := by
  suffices h : ∀ xs ys, inputs.foldl (collectStep cache) (xs, ys) =
      (xs ++ inputs.filterMap (fun i => cacheGet cache (chunkKey i)),
       ys ++ inputs.filter (fun i => (cacheGet cache (chunkKey i)).isNone)) by
    have := h [] []
    simpa [collect] using this
  induction inputs with
  | nil => intro xs ys; simp
  | cons i rest ih =>
    intro xs ys
    rw [List.foldl_cons]
    cases hc : cacheGet cache (chunkKey i) with
    | some c =>
      rw [show collectStep cache (xs, ys) i = (xs ++ [c], ys) by rw [collectStep, hc]]
      rw [ih (xs ++ [c]) ys]
      simp [List.filterMap_cons, List.filter_cons, hc]
    | none =>
      rw [show collectStep cache (xs, ys) i = (xs, ys ++ [i]) by rw [collectStep, hc]]
      rw [ih xs (ys ++ [i])]
      simp [List.filterMap_cons, List.filter_cons, hc]

/-- A cache hit always returns a chunk whose own recomputed key is the looked
up key (the cache maps `keyOfChunk c ↦ c`). -/
theorem cacheGet_key (opts : IndexOptionsM) (pm : Option IndexManifest)
    (pc : List Chunk) (k : Str) (c : Chunk)
    (h : cacheGet (cacheOf opts pm pc) k = some c) : keyOfChunk c = k := by
  rw [cacheGet] at h
  cases hfind : (cacheOf opts pm pc).reverse.find? (fun e => e.1 == k) with
  | none => rw [hfind] at h; simp at h
  | some e =>
    rw [hfind] at h
    simp at h
    have hpred := List.find?_some hfind
    have hmem := List.mem_of_find?_eq_some hfind
    rw [List.mem_reverse] at hmem
    match pm with
    | none => simp [cacheOf] at hmem
    | some m =>
      rw [cacheOf] at hmem
      split at hmem
      · obtain ⟨c', _, hc'⟩ := List.mem_map.mp hmem
        rw [← hc'] at hpred h
        simp only [beq_iff_eq] at hpred
        rw [← h]
        exact hpred
      · simp at hmem

theorem mem_zip_left {α β : Type} (l : List α) (l' : List β) (x : α)
    (hx : x ∈ l) (hlen : l.length ≤ l'.length) : ∃ y, (x, y) ∈ l.zip l' := by
  induction l generalizing l' with
  | nil => simp at hx
  | cons a as ih =>
    cases l' with
    | nil => simp at hlen
    | cons b bs =>
      rcases List.mem_cons.mp hx with rfl | hx'
      · exact ⟨b, by simp⟩
      · obtain ⟨y, hy⟩ := ih bs hx' (by simpa using hlen)
        exact ⟨y, List.mem_cons_of_mem _ hy⟩

/-- Unpacking a successful build: the manifest records the run's own options,
the chunk collection is the sorted union of reused and newly embedded chunks,
and the embedding count matched. -/
theorem buildIndexM_ok (env : IndexEnv) (embed : List Str → List (List ℚ))
    (opts : IndexOptionsM) (pm : Option IndexManifest) (pc : List Chunk)
    (files : List FileMeta) (out : BuildSuccess) (ops : List StoreOp)
    (h : buildIndexM env embed opts pm pc files = (.ok out, ops)) :
    out.manifest = mkManifest env opts files.length out.chunks.length ∧
    out.chunks = ((runReused env opts pm pc files) ++
      ((runPending env opts pm pc files).zip
        (embed ((runPending env opts pm pc files).map (fun c => c.content)))).map
          (mkNewChunk env)).mergeSort chunkOrder ∧
    (embed ((runPending env opts pm pc files).map (fun c => c.content))).length =
      (runPending env opts pm pc files).length := by
  rw [buildIndexM] at h
  split at h
  · simp at h
  · next hlen =>
    rw [not_not] at hlen
    simp only [Prod.mk.injEq, Except.ok.injEq] at h
    obtain ⟨hout, hops⟩ := h
    subst hout
    exact ⟨rfl, rfl, hlen⟩

/-- C5: if the embedding service returns a number of vectors different from
the number of cache-miss chunks requested, `buildIndex` throws (with the
count-mismatch message) before `replaceChunks` or `saveManifest` is called:
the store-operation trace is empty, so any previously persisted chunk
collection and manifest are left unchanged and no partial index is ever
persisted. -/
theorem buildIndexM_mismatch_aborts (env : IndexEnv) (embed : List Str → List (List ℚ))
    (opts : IndexOptionsM) (pm : Option IndexManifest) (pc : List Chunk)
    (files : List FileMeta) (store : Store)
    (h : (embed ((runPending env opts pm pc files).map (fun c => c.content))).length ≠
      (runPending env opts pm pc files).length) :
    (buildIndexM env embed opts pm pc files).1 =
      .error (mismatchMessage (runPending env opts pm pc files).length
        (embed ((runPending env opts pm pc files).map (fun c => c.content))).length) ∧
    (buildIndexM env embed opts pm pc files).2 = [] ∧
    applyOps store (buildIndexM env embed opts pm pc files).2 = store := by
  have hb : buildIndexM env embed opts pm pc files =
      (.error (mismatchMessage (runPending env opts pm pc files).length
        (embed ((runPending env opts pm pc files).map (fun c => c.content))).length), []) := by
    have h' := h
    rw [runPending] at h'
    rw [buildIndexM, if_pos h']
    rw [runPending]
  rw [hb]
  exact ⟨rfl, rfl, rfl⟩

/-- Every chunk input of a successful run has, in the persisted collection,
a chunk carrying the same identity key: cache hits carry their own key
(`cacheGet_key`) and misses are embedded into chunks copying the input's
fields. -/
theorem buildIndexM_key_complete (env : IndexEnv) (embed : List Str → List (List ℚ))
    (opts : IndexOptionsM) (pm : Option IndexManifest) (pc : List Chunk)
    (files : List FileMeta) (out : BuildSuccess) (ops : List StoreOp)
    (h : buildIndexM env embed opts pm pc files = (.ok out, ops)) :
    ∀ i ∈ runInputs env opts files, ∃ c ∈ out.chunks, keyOfChunk c = chunkKey i := by
  obtain ⟨hman, hchunks, hlen⟩ := buildIndexM_ok env embed opts pm pc files out ops h
  intro i hi
  cases hc : cacheGet (cacheOf opts pm pc) (chunkKey i) with
  | some c =>
    refine ⟨c, ?_, cacheGet_key opts pm pc _ c hc⟩
    rw [hchunks, List.mem_mergeSort, List.mem_append]
    left
    rw [runReused, collect_spec]
    exact List.mem_filterMap.mpr ⟨i, hi, hc⟩
  | none =>
    have hip : i ∈ runPending env opts pm pc files := by
      rw [runPending, collect_spec]
      exact List.mem_filter.mpr ⟨hi, by rw [hc]; rfl⟩
    obtain ⟨y, hy⟩ := mem_zip_left (runPending env opts pm pc files)
      (embed ((runPending env opts pm pc files).map (fun c => c.content))) i hip (by omega)
    refine ⟨mkNewChunk env (i, y), ?_, rfl⟩
    rw [hchunks, List.mem_mergeSort, List.mem_append]
    right
    exact List.mem_map.mpr ⟨(i, y), hy, rfl⟩

/-- `chunkKey` reads neither `fileMtimeMs` nor `fileSize`, so inputs built
from files with equal path and content have equal keys. -/
theorem chunkKey_toChunkInput (env : IndexEnv) (f g : FileMeta) (lang : Str)
    (part : ChunkPart) (hp : f.relPath = g.relPath) :
    chunkKey (toChunkInput env f lang part) = chunkKey (toChunkInput env g lang part) := by
  rw [chunkKey, chunkKey]
  congr 1
  simp [chunkKeyFields, toChunkInput, hp]

theorem inputsOfFile_keys_congr (env : IndexEnv) (opts : IndexOptionsM) (f g : FileMeta)
    (hp : f.relPath = g.relPath) (hc : f.content = g.content) :
    (inputsOfFile env opts f).map chunkKey = (inputsOfFile env opts g).map chunkKey := by
  rw [inputsOfFile, inputsOfFile, hp, hc]
  rw [List.map_map, List.map_map]
  apply List.map_congr_left
  intro part _
  simp only [Function.comp]
  exact chunkKey_toChunkInput env f g _ part hp

/-- Byte-identical file lists (same paths and contents, arbitrary
mtimes/sizes) produce the same sequence of chunk keys. -/
theorem runInputs_keys_congr (env : IndexEnv) (opts : IndexOptionsM) :
    ∀ files₂ files₁ : List FileMeta,
      files₂.map (fun f => (f.relPath, f.content)) =
        files₁.map (fun f => (f.relPath, f.content)) →
      (runInputs env opts files₂).map chunkKey = (runInputs env opts files₁).map chunkKey := by
  intro files₂
  induction files₂ with
  | nil =>
    intro files₁ h
    cases files₁ with
    | nil => rfl
    | cons g gs => simp at h
  | cons f fs ih =>
    intro files₁ h
    cases files₁ with
    | nil => simp at h
    | cons g gs =>
      simp only [List.map_cons, List.cons.injEq, Prod.mk.injEq] at h
      obtain ⟨⟨hp, hc⟩, hrest⟩ := h
      rw [runInputs, runInputs, List.flatMap_cons, List.flatMap_cons,
        List.map_append, List.map_append]
      rw [inputsOfFile_keys_congr env opts f g hp hc]
      have htail := ih gs hrest
      rw [runInputs, runInputs] at htail
      rw [htail]

theorem cacheOf_manifest_self (env : IndexEnv) (opts : IndexOptionsM) (a b : Nat)
    (pc : List Chunk) :
    cacheOf opts (some (mkManifest env opts a b)) pc =
      pc.map fun c => (keyOfChunk c, c) := by
  rw [cacheOf]
  rw [if_pos ⟨rfl, rfl, rfl, rfl⟩]

theorem cacheGet_isSome (cache : List (Str × Chunk)) (k : Str) (e : Str × Chunk)
    (he : e ∈ cache) (hek : e.1 = k) : (cacheGet cache k).isSome := by
  rw [cacheGet]
  have hfind : ((cache.reverse).find? (fun x => x.1 == k)).isSome := by
    rw [List.find?_isSome]
    exact ⟨e, List.mem_reverse.mpr he, by simp [hek]⟩
  cases hf : cache.reverse.find? (fun x => x.1 == k) with
  | none => rw [hf] at hfind; simp at hfind
  | some x => rfl

theorem length_filterMap_isSome {α β : Type} (f : α → Option β) :
    ∀ l : List α, (∀ a ∈ l, (f a).isSome) → (l.filterMap f).length = l.length := by
  intro l
  induction l with
  | nil => intro _; rfl
  | cons a as ih =>
    intro h
    rw [List.filterMap_cons]
    cases hf : f a with
    | none =>
      have := h a (List.mem_cons_self a as)
      rw [hf] at this
      simp at this
    | some b =>
      simp only [List.length_cons]
      rw [ih (fun x hx => h x (List.mem_cons_of_mem a hx))]

/-- C4: if the previous manifest records the same embedding model, chunking
mode, chunk size and overlap as the current build, then re-running
`buildIndex` over byte-identical input files (equal paths and contents;
mtimes and sizes are not part of the identity key and may differ) reuses
every prior embedding and requests zero new embeddings; if any of those four
parameters differs from the prior manifest — or there is no prior manifest —
the prior chunk collection is never consulted (the cache stays empty) and
every chunk is re-embedded. -/
theorem buildIndex_cache_reuse (env : IndexEnv) (embed : List Str → List (List ℚ))
    (opts : IndexOptionsM) (pm : Option IndexManifest) (pc : List Chunk)
    (files₁ files₂ : List FileMeta) (out : BuildSuccess) (ops : List StoreOp) :
    (buildIndexM env embed opts pm pc files₁ = (.ok out, ops) →
      files₂.map (fun f => (f.relPath, f.content)) =
        files₁.map (fun f => (f.relPath, f.content)) →
      runPending env opts (some out.manifest) out.chunks files₂ = [] ∧
      (runReused env opts (some out.manifest) out.chunks files₂).length =
        (runInputs env opts files₂).length) ∧
    ((∀ m, pm = some m → ¬(m.embeddingModel = opts.embeddingModel ∧
        m.chunkingMode = opts.chunkingMode ∧ m.chunkSize = opts.chunkSize ∧
        m.overlapLines = opts.overlapLines)) →
      cacheOf opts pm pc = [] ∧
      runPending env opts pm pc files₂ = runInputs env opts files₂ ∧
      runReused env opts pm pc files₂ = []) := by
  constructor
  · intro h hfiles
    obtain ⟨hman, hchunks, hlen⟩ := buildIndexM_ok env embed opts pm pc files₁ out ops h
    have hkeys := buildIndexM_key_complete env embed opts pm pc files₁ out ops h
    have hmap := runInputs_keys_congr env opts files₂ files₁ hfiles
    have hcache : cacheOf opts (some out.manifest) out.chunks =
        out.chunks.map fun c => (keyOfChunk c, c) := by
      rw [hman]
      exact cacheOf_manifest_self env opts _ _ _
    have hall : ∀ i ∈ runInputs env opts files₂,
        (cacheGet (cacheOf opts (some out.manifest) out.chunks) (chunkKey i)).isSome := by
      intro i hi
      have hki : chunkKey i ∈ (runInputs env opts files₁).map chunkKey := by
        rw [← hmap]
        exact List.mem_map_of_mem chunkKey hi
      obtain ⟨i₁, hi₁, hki₁⟩ := List.mem_map.mp hki
      obtain ⟨c, hcmem, hck⟩ := hkeys i₁ hi₁
      rw [hcache]
      exact cacheGet_isSome _ _ (keyOfChunk c, c) (List.mem_map_of_mem _ hcmem)
        (by rw [hck, hki₁])
    constructor
    · rw [runPending, collect_spec]
      apply List.filter_eq_nil_iff.mpr
      intro i hi
      intro hnone
      have hsome := hall i hi
      rw [Option.isNone_iff_eq_none] at hnone
      rw [hnone] at hsome
      simp at hsome
    · rw [runReused, collect_spec]
      exact length_filterMap_isSome _ _ hall
  · intro hmm
    have hcache : cacheOf opts pm pc = [] := by
      match pm with
      | none => rfl
      | some m =>
        rw [cacheOf]
        rw [if_neg (hmm m rfl)]
    refine ⟨hcache, ?_, ?_⟩
    · rw [runPending, collect_spec, hcache]
      simp [cacheGet]
    · rw [runReused, collect_spec, hcache]
      simp [cacheGet]

/-- Concrete data for the indexer witnesses. -/
def sampleEnv : IndexEnv :=
  { hash := fun s => s, detectLanguage := fun _ => ("txt").data,
    astSupported := fun _ _ => false, astChunker := fun _ _ => [], now := [] }

def sampleOpts : IndexOptionsM :=
  { repoRoot := [], embeddingModel := ("m").data, chunkingMode := .text,
    chunkSize := 5, overlapLines := 0, maxFileSizeBytes := 100, excludedDirs := [] }

def sampleFile : FileMeta :=
  { relPath := ("a").data, content := ("x").data, mtimeMs := 0, size := 1 }

/-- The same file re-scanned later: identical bytes, different mtime. -/
def sampleFileLater : FileMeta :=
  { relPath := ("a").data, content := ("x").data, mtimeMs := 7, size := 1 }

def sampleEmbed : List Str → List (List ℚ) := fun ts => ts.map (fun _ => [1])

def sampleRun : Except Str BuildSuccess × List StoreOp :=
  buildIndexM sampleEnv sampleEmbed sampleOpts none [] [sampleFile]

def extractOk (r : Except Str BuildSuccess × List StoreOp) : BuildSuccess :=
  match r.1 with
  | .ok o => o
  | .error _ =>
    { chunks := [], manifest := mkManifest sampleEnv sampleOpts 0 0,
      stats := ⟨0, 0, 0, 0, 0⟩ }

theorem buildIndex_cache_reuse_witness :
    runPending sampleEnv sampleOpts (some (extractOk sampleRun).manifest)
      (extractOk sampleRun).chunks [sampleFileLater] = [] ∧
    (runReused sampleEnv sampleOpts (some (extractOk sampleRun).manifest)
      (extractOk sampleRun).chunks [sampleFileLater]).length =
      (runInputs sampleEnv sampleOpts [sampleFileLater]).length :=
  (buildIndex_cache_reuse sampleEnv sampleEmbed sampleOpts none [] [sampleFile]
    [sampleFileLater] (extractOk sampleRun) sampleRun.2).1 (by rfl) (by rfl)

theorem buildIndexM_mismatch_aborts_witness :
    (buildIndexM sampleEnv (fun _ => []) sampleOpts none [] [sampleFile]).2 = [] ∧
    applyOps ⟨[], none⟩ (buildIndexM sampleEnv (fun _ => []) sampleOpts none [] [sampleFile]).2 =
      ⟨[], none⟩ :=
  (buildIndexM_mismatch_aborts sampleEnv (fun _ => []) sampleOpts none [] [sampleFile]
    ⟨[], none⟩ (by decide)).2
